import Mathlib

/-!
Verification of the core of `vibrato-worker` (src/src/main.rs): the text
segmenter (`split_words`), the feature mapper and tokenization pipeline
(`VibratoWorker::tokenize`, `VibratoWorker::tokenize_lines`,
`generate_dummy_data`), the message framer (`read_u32`, `get_message`) and
the request dispatcher (`do_stuff`'s loop body).

The external morphological analyzer (the `vibrato` crate) is treated as a
black box: a function `String → List Token`.  UTF-8 decoding and JSON
parsing inside the framer are likewise external library calls, abstracted
as function parameters.  Everything else is translated from main.rs.
-/

/-- The set of Unicode `White_Space` characters, the set recognized by
Rust's `char::is_whitespace` (used by `Category::from` and `str::trim`). -/
def WHITESPACE : List Char :=
  ['\t', '\n', '\x0b', '\x0c', '\r', ' ', '\u0085', ' ', ' ',
   ' ', ' ', ' ', ' ', ' ', ' ', ' ',
   ' ', ' ', ' ', ' ', ' ', ' ', ' ',
   ' ', '　']

/-- Rust `char::is_whitespace`: membership in the Unicode White_Space set. -/
def isRustWhitespace (c : Char) : Bool :=
  WHITESPACE.contains c

/-- main.rs 108-112: `enum Category { Word, Whitespace }`. -/
inductive Category where
  | Word
  | Whitespace
deriving DecidableEq, Repr

/-- main.rs 114-122: `Category::from(c)` — `Whitespace` iff
`c.is_whitespace()`, else `Word`.  (`from` is a Lean keyword, hence the
name `fromChar`.) -/
def Category.fromChar (c : Char) : Category :=
  if isRustWhitespace c then .Whitespace else .Word

-- Helper for termination: `dropWhile` never lengthens a list.
theorem dropWhile_length_le (p : Char → Bool) :
    ∀ l : List Char, (l.dropWhile p).length ≤ l.length := by
  intro l
  induction l with
  | nil => simp [List.dropWhile]
  | cons x xs ih =>
    by_cases hx : p x
    · rw [List.dropWhile_cons_of_pos hx]
      exact Nat.le_succ_of_le ih
    · rw [List.dropWhile_cons_of_neg hx]

/-- main.rs 124-158: `split_words`, at the level of character lists.  The
iterator's closure consumes, starting at byte offset `pos`, the first
character (setting `category`) and then every following character of the
same category, and yields the consumed slice when it peeks a character of
the other category (resetting `category` to `None`) or when the input is
exhausted (yielding `None` instead when nothing was consumed).  Hence each
call yields the maximal same-category prefix of the remaining input. -/
def splitWordsChars : List Char → List (List Char)
  | [] => []
  | c :: cs =>
    (c :: cs.takeWhile (fun d => Category.fromChar d = Category.fromChar c))
      :: splitWordsChars (cs.dropWhile (fun d => Category.fromChar d = Category.fromChar c))
termination_by l => l.length
decreasing_by
  simp only [List.length_cons]
  exact Nat.lt_succ_of_le (dropWhile_length_le _ _)

/-- main.rs 124-158: `split_words` on strings.  The Rust iterator yields
`&str` slices of `s` delimited at byte offsets accumulated from
`ch.len_utf8()` of the consumed characters, i.e. exactly the strings of
the consumed character runs. -/
def split_words (s : String) : List String :=
  (splitWordsChars s.data).map String.mk

/-- Category of a run, read off its first character (runs are never
empty; the default on `[]` is irrelevant). -/
def runCat : List Char → Category
  | [] => .Word
  | c :: _ => Category.fromChar c

-- Helper: the head of `dropWhile p` falsifies `p`.
theorem head_dropWhile_false {p : Char → Bool} :
    ∀ (l : List Char) (a : Char) (t : List Char),
      l.dropWhile p = a :: t → p a = false := by
  intro l
  induction l with
  | nil => intro a t h; simp [List.dropWhile] at h
  | cons x xs ih =>
    intro a t h
    by_cases hx : p x
    · rw [List.dropWhile_cons_of_pos hx] at h
      exact ih a t h
    · rw [List.dropWhile_cons_of_neg hx] at h
      cases h
      exact Bool.eq_false_iff.mpr hx

-- Helper: concatenation of the runs reproduces the input.
theorem splitWordsChars_flatten (l : List Char) :
    (splitWordsChars l).flatten = l := by
  induction l using splitWordsChars.induct with
  | case1 => simp [splitWordsChars]
  | case2 c cs ih =>
    rw [splitWordsChars]
    simp only [List.flatten_cons, List.cons_append]
    rw [ih, List.takeWhile_append_dropWhile]

-- Helper: no run is empty.
theorem splitWordsChars_ne_nil (l : List Char) :
    ∀ r ∈ splitWordsChars l, r ≠ [] := by
  induction l using splitWordsChars.induct with
  | case1 => intro r hr; simp [splitWordsChars] at hr
  | case2 c cs ih =>
    intro r hr
    rw [splitWordsChars] at hr
    rcases List.mem_cons.mp hr with h | h
    · subst h; exact List.cons_ne_nil _ _
    · exact ih r h

-- Helper: every character of a run has the run's category.
theorem splitWordsChars_same_cat (l : List Char) :
    ∀ r ∈ splitWordsChars l, ∀ a ∈ r, ∀ b ∈ r,
      Category.fromChar a = Category.fromChar b := by
  induction l using splitWordsChars.induct with
  | case1 => intro r hr; simp [splitWordsChars] at hr
  | case2 c cs ih =>
    intro r hr
    rw [splitWordsChars] at hr
    rcases List.mem_cons.mp hr with h | h
    · subst h
      intro a ha b hb
      have key : ∀ x ∈ c :: cs.takeWhile
          (fun d => Category.fromChar d = Category.fromChar c),
          Category.fromChar x = Category.fromChar c := by
        intro x hx
        rcases List.mem_cons.mp hx with h | h
        · subst h; rfl
        · have := List.mem_takeWhile_imp h
          exact of_decide_eq_true this
      rw [key a ha, key b hb]
    · exact ih r h

-- Helper: adjacent runs have different categories.
theorem splitWordsChars_chain (l : List Char) :
    List.Chain' (fun r₁ r₂ => runCat r₁ ≠ runCat r₂) (splitWordsChars l) := by
  induction l using splitWordsChars.induct with
  | case1 => simp [splitWordsChars]
  | case2 c cs ih =>
    rw [splitWordsChars]
    refine List.chain'_cons'.mpr ⟨?_, ih⟩
    intro r hr
    cases hcase : cs.dropWhile
        (fun d => decide (Category.fromChar d = Category.fromChar c)) with
    | nil =>
      rw [hcase] at hr
      simp [splitWordsChars] at hr
    | cons a t =>
      rw [hcase] at hr
      rw [splitWordsChars] at hr
      simp only [List.head?_cons, Option.mem_def, Option.some.injEq] at hr
      have ha : Category.fromChar a ≠ Category.fromChar c := by
        have := head_dropWhile_false cs a t hcase
        simpa using this
      rw [← hr]
      simpa [runCat] using fun h => ha h.symm

/-- C1: for every line, the ordered concatenation of the runs produced by
`split_words` equals the line exactly, no run is empty, every character of
a run has the run's category, and no two adjacent runs share a category
(Word vs Whitespace, a character being Whitespace iff it is Unicode
whitespace). -/
theorem C1_split_words_partition (s : String) :
    String.join (split_words s) = s ∧
    (∀ r ∈ split_words s, r ≠ "") ∧
    (∀ r ∈ split_words s, ∀ a ∈ r.data, ∀ b ∈ r.data,
      Category.fromChar a = Category.fromChar b) ∧
    List.Chain' (fun r₁ r₂ => runCat r₁.data ≠ runCat r₂.data) (split_words s) := by
  refine ⟨?_, ?_, ?_, ?_⟩
  · rw [split_words, String.join_eq, List.map_map]
    have hcomp : (String.data ∘ String.mk) = id := funext (fun _ => rfl)
    rw [hcomp, List.map_id, splitWordsChars_flatten]
  · intro r hr
    rw [split_words] at hr
    obtain ⟨cs, hcs, hmk⟩ := List.mem_map.mp hr
    intro hcontra
    have : cs = [] := by
      have : r.data = ([] : List Char) := by rw [hcontra]
      rw [← hmk] at this
      exact this
    exact splitWordsChars_ne_nil s.data cs hcs this
  · intro r hr
    rw [split_words] at hr
    obtain ⟨cs, hcs, hmk⟩ := List.mem_map.mp hr
    have hdata : r.data = cs := by rw [← hmk]
    rw [hdata]
    exact splitWordsChars_same_cat s.data cs hcs
  · rw [split_words]
    rw [List.chain'_map]
    exact splitWordsChars_chain s.data

/-! ## JSON values and the analyzer interface -/

/-- The type `serde_json::Value`, as used by main.rs.  JSON numbers are modelled as
integers: the only numbers the program ever builds or inspects are small
integers (`{"version": 1}`, the length prefix never becomes a `Value`).
Objects are finite lists of key/value pairs looked up by key; the claims
never depend on key order. -/
inductive JValue where
  | null
  | bool (b : Bool)
  | num (n : Int)
  | str (s : String)
  | arr (elems : List JValue)
  | obj (fields : List (String × JValue))

/-- A token produced by the external `vibrato` analyzer: its surface form
(`tk.surface()`) and raw feature string (`tk.feature()`). -/
structure Token where
  surface : String
  feature : String
deriving DecidableEq, Repr

/-- The external Analyzer as a black box: for each input string, the
ordered token list that `worker.reset_sentence(s); worker.tokenize();
worker.token_iter()` would yield. -/
def Analyzer : Type := String → List Token

/-! ## Feature mapper and tokenization pipeline (main.rs 46-105, 160-167) -/

/-- main.rs 55-68: the fixed field-name array `DATA`. -/
def DATA : List String :=
  ["pos", "pos2", "pos3", "pos4", "inflection_type", "inflection_form",
   "lemma_reading", "lemma", "expression", "reading", "expression_base",
   "reading_base"]

/-- Exhaustive split of a character list at a separator character (the
semantics of Rust `split(',')` / `split('-')` / `split('\n')` at character
level): `[]` gives one empty piece, and every occurrence of `sep` closes a
piece. -/
def splitOnChar (sep : Char) : List Char → List (List Char)
  | [] => [[]]
  | c :: cs =>
    if c = sep then [] :: splitOnChar sep cs
    else
      match splitOnChar sep cs with
      | [] => [[c]]
      | r :: rs => (c :: r) :: rs

/-- main.rs 69-71: `tk.feature().split(',')` then `flat_map(|f| f.split('-'))`.
Rust's `split` on a one-character pattern is exhaustive and yields `[""]`
on the empty string. -/
def featureSubfields (feature : String) : List String :=
  ((splitOnChar ',' feature.data).flatMap (splitOnChar '-')).map String.mk

/-- main.rs 71-77: each sub-field `t` becomes `None` if `t == "*"`, else
`Some(t)`. -/
def featureInfo (feature : String) : List (Option String) :=
  (featureSubfields feature).map (fun t => if t = "*" then none else some t)

/-- main.rs 78-84: the pair vector for one token —
`vec![("source", Some(surface))]` extended with `DATA.zip(info)` (Rust
`zip` truncates at the shorter side, like `List.zip`). -/
def tokenPairs (tk : Token) : List (String × Option String) :=
  ("source", some tk.surface) :: DATA.zip (featureInfo tk.feature)

/-- serde serialization of one `(String, Option<String>)` tuple: a
two-element JSON array `[key, value]`, with `None` as `null`. -/
def pairToJson : String × Option String → JValue
  | (k, some v) => .arr [.str k, .str v]
  | (k, none) => .arr [.str k, .null]

/-- main.rs 85: `serde_json::to_value(&value)` where
`value : Vec<(String, Option<String>)>` — serde serializes a `Vec` of
tuples as a JSON array of two-element arrays, not as an object. -/
def tokenRecord (tk : Token) : JValue :=
  .arr ((tokenPairs tk).map pairToJson)

/-- main.rs 46-88: `VibratoWorker::tokenize` — pushes `json!({"source": s})`
first, then one record per analyzer token.  (`serde_json::to_value` on the
pair vector cannot fail, so the `Result` is always `Ok`.) -/
def VibratoWorker.tokenize (analyzer : Analyzer) (s : String) : List JValue :=
  JValue.obj [("source", .str s)] :: (analyzer s).map tokenRecord

/-- main.rs 160-167: `generate_dummy_data`. -/
def generate_dummy_data (s : String) : JValue :=
  .obj [("source", .str s), ("ipadic", .null), ("ipadic-neologd", .null),
        ("unidic-mecab-translate", .null)]

/-- Rust `str::trim` on a character list: drop Unicode whitespace from
both ends. -/
def rust_trim (cs : List Char) : List Char :=
  ((cs.dropWhile isRustWhitespace).reverse.dropWhile isRustWhitespace).reverse

/-- One trailing carriage return stripped: the `strip_suffix('\r')` step
of Rust `str::lines`, applied only to the newline-terminated pieces. -/
def stripCR (l : List Char) : List Char :=
  if l.getLast? = some '\r' then l.dropLast else l

/-- Rust `str::lines`: split inclusively at `'\n'`; a piece that was
terminated by `'\n'` has that newline and then one trailing `'\r'` (if
present) stripped, while a final piece not terminated by `'\n'` is kept
as is — a trailing `'\r'` without `'\n'` stays (`"ab\r"` is the single
line `"ab\r"`), and `""` has no lines.  In terms of `splitOnChar '\n'`:
every piece but the last was newline-terminated; the last piece is empty
iff the input ends in `'\n'`, and then produces no line. -/
def rust_lines (s : String) : List String :=
  if s.data = [] then []
  else
    ((splitOnChar '\n' s.data).dropLast.map stripCR
      ++ (if s.data.getLast? = some '\n' then []
          else [((splitOnChar '\n' s.data).getLast?).getD []])).map String.mk

/-- main.rs 96-102: the body of the per-run loop in `tokenize_lines` —
a run whose trimmed content is empty contributes one dummy record,
any other run contributes the records of `VibratoWorker::tokenize`. -/
def processPart (analyzer : Analyzer) (part : String) : List JValue :=
  if rust_trim part.data = [] then [generate_dummy_data part]
  else VibratoWorker.tokenize analyzer part

/-- main.rs 90-105: `VibratoWorker::tokenize_lines` — for each line of the
input, for each run of `split_words`, append that run's records. -/
def VibratoWorker.tokenize_lines (analyzer : Analyzer) (s : String) : List JValue :=
  (rust_lines s).flatMap (fun line => (split_words line).flatMap (processPart analyzer))

/-! ## Message framer (main.rs 169-196) -/

/-- main.rs 169-173: `read_u32` — `read_exact` of 4 bytes, assembled with
`u32::from_ne_bytes`.  Bytes are naturals below 256; the reference host is
little-endian, so byte 0 is least significant.  `none` models the
`read_exact` error on a short read. -/
def read_u32 (input : List Nat) : Option (Nat × List Nat) :=
  match input with
  | b0 :: b1 :: b2 :: b3 :: rest =>
      some (b0 + b1 * 256 + b2 * 65536 + b3 * 16777216, rest)
  | _ => none

/-- Result of `get_message`: `end of stream` (`Ok(None)`), a decoded
message plus the remaining stream bytes (`Ok(Some(v))`), or an error
(`Err(_)` from a short read, invalid UTF-8 or invalid JSON). -/
inductive MsgResult where
  | eof
  | msg (v : JValue) (rest : List Nat)
  | err

/-- main.rs 175-187: `get_message`.  The stream is the list of bytes
remaining until EOF; `fill_buf` returns an empty slice exactly when that
list is empty.  `String::from_utf8` and `serde_json::Value::from_str` are
external library calls, abstracted as the parameters `utf8Decode` and
`jsonParse` (`none` = their error case). -/
def get_message (utf8Decode : List Nat → Option String)
    (jsonParse : String → Option JValue) (input : List Nat) : MsgResult :=
  match input with
  | [] => .eof
  | _ =>
    match read_u32 input with
    | none => .err
    | some (len, rest) =>
      if len ≤ rest.length then
        match utf8Decode (rest.take len) with
        | none => .err
        | some s =>
          match jsonParse s with
          | none => .err
          | some v => .msg v (rest.drop len)
      else .err

/-! ## Request dispatcher (main.rs 223-263) -/

/-- serde's `Value::get(key)`: `Some` of the entry for an object that
has the key, `None` otherwise. -/
def jGet (v : JValue) (key : String) : Option JValue :=
  match v with
  | .obj fields => fields.lookup key
  | _ => none

/-- serde's string indexing `v[key]`: like `get`, but `Null` when the
key is absent or `v` is not an object. -/
def jIndex (v : JValue) (key : String) : JValue :=
  (jGet v key).getD .null

/-- serde's `Value::as_str`. -/
def jAsStr : JValue → Option String
  | .str s => some s
  | _ => none

/-- serde's `Value == &str` comparison (`impl PartialEq<str> for Value`):
true exactly when the value is the equal JSON string. -/
def jEqStr (v : JValue) (s : String) : Bool :=
  match v with
  | .str t => t == s
  | _ => false

/-- Outcome of dispatching one decoded request: a response message sent
back through the framer, or process abort (`panic!` / `unreachable!`). -/
inductive DispatchResult where
  | reply (response : JValue)
  | abort

/-- main.rs 233-263: the dispatch on one decoded message inside
`do_stuff`'s loop.  `req == "get_version"` is serde's `Value == &str`
comparison, true exactly for the equal JSON string.  The `parse_text` arm
reads `msg["params"]["text"].as_str()` and panics when it is not a string;
the final `_` arm is `unreachable!()`. -/
def do_stuff_dispatch (analyzer : Analyzer) (msg : JValue) : DispatchResult :=
  match jGet msg "action" with
  | some req =>
      if jEqStr req "get_version" then
        .reply (.obj [("sequence", jIndex msg "sequence"),
                      ("data", .obj [("version", .num 1)])])
      else if jEqStr req "parse_text" then
        match jAsStr (jIndex (jIndex msg "params") "text") with
        | some text =>
            .reply (.obj [("sequence", jIndex msg "sequence"),
                          ("data", .arr (VibratoWorker.tokenize_lines analyzer text))])
        | none => .abort
      else .abort
  | none => .abort

/-! ## C2: the feature mapper -/

-- Helper: pointwise description of `zip`.
theorem getElem?_zip_eq {α β : Type} (l₁ : List α) (l₂ : List β) :
    ∀ k : Nat, (l₁.zip l₂)[k]? =
      (l₁[k]?).bind (fun a => (l₂[k]?).map (fun b => (a, b))) := by
  induction l₁ generalizing l₂ with
  | nil => intro k; simp
  | cons a as ih =>
    intro k
    cases l₂ with
    | nil => simp
    | cons b bs =>
      cases k with
      | zero => simp [List.zip_cons_cons]
      | succ n => simpa [List.zip_cons_cons] using ih bs n

-- Helper: the keys of a zip are the key list truncated at the zip length.
theorem map_fst_zip_eq_take {α β : Type} :
    ∀ (l₁ : List α) (l₂ : List β),
      (l₁.zip l₂).map Prod.fst = l₁.take (min l₁.length l₂.length) := by
  intro l₁
  induction l₁ with
  | nil => intro l₂; simp
  | cons a as ih =>
    intro l₂
    cases l₂ with
    | nil => simp
    | cons b bs =>
      simp only [List.zip_cons_cons, List.map_cons, List.length_cons,
        Nat.succ_min_succ, List.take_succ_cons, List.cons.injEq, true_and]
      exact ih bs

/-- C2: the feature mapper splits the raw feature string exhaustively on
commas, then every field exhaustively on dashes, flattening in order; the
first `min(12, number of sub-fields)` sub-fields are bound in order to the
fixed 12 names, extra sub-fields are discarded, names with no sub-field
are absent from the bound pair list, and a sub-field `"*"` is bound as
`null` (`none`) instead of the literal string. -/
theorem C2_feature_mapper (f : String) :
    DATA = ["pos", "pos2", "pos3", "pos4", "inflection_type",
            "inflection_form", "lemma_reading", "lemma", "expression",
            "reading", "expression_base", "reading_base"] ∧
    featureSubfields f
      = (((splitOnChar ',' f.data).map (splitOnChar '-')).flatten).map String.mk ∧
    (DATA.zip (featureInfo f)).length = min 12 (featureSubfields f).length ∧
    (DATA.zip (featureInfo f)).map Prod.fst
      = DATA.take (min 12 (featureSubfields f).length) ∧
    ∀ k : Nat, (DATA.zip (featureInfo f))[k]? =
      (DATA[k]?).bind (fun name => ((featureSubfields f)[k]?).map
        (fun sub => (name, if sub = "*" then none else some sub))) := by
  have hlen : (featureInfo f).length = (featureSubfields f).length := by
    rw [featureInfo, List.length_map]
  have hD : DATA.length = 12 := by rw [DATA]; rfl
  refine ⟨rfl, ?_, ?_, ?_, ?_⟩
  · rw [featureSubfields, List.flatMap_def]
  · rw [List.length_zip, hlen, hD]
  · rw [map_fst_zip_eq_take, hlen, hD]
  · intro k
    rw [getElem?_zip_eq]
    have hinfo : (featureInfo f)[k]? =
        ((featureSubfields f)[k]?).map (fun t => if t = "*" then none else some t) := by
      rw [featureInfo, List.getElem?_map]
    rw [hinfo]
    cases DATA[k]? with
    | none => rfl
    | some name =>
      cases (featureSubfields f)[k]? with
      | none => rfl
      | some sub => rfl

/-! ## C3: records emitted for a word run -/

/-- C3 counterexample: for the word run `"a"` (non-empty trimmed content)
and an analyzer returning no tokens, the pipeline still emits one record —
`{"source": "a"}` — although the claim requires exactly one record per
token and none besides (here: zero records). -/
theorem C3_counterexample :
    rust_trim "a".data ≠ [] ∧
    ((fun _ => ([] : List Token)) : Analyzer) "a" = [] ∧
    processPart (fun _ => ([] : List Token)) "a"
      = [JValue.obj [("source", JValue.str "a")]] ∧
    processPart (fun _ => ([] : List Token)) "a"
      ≠ (((fun _ => ([] : List Token)) : Analyzer) "a").map tokenRecord := by
  have hp : processPart (fun _ => ([] : List Token)) "a"
      = [JValue.obj [("source", JValue.str "a")]] := by
    rw [processPart]
    have h : rust_trim "a".data = [] ↔ False := by decide
    rw [if_neg (h.mp), VibratoWorker.tokenize]
    rfl
  refine ⟨by decide, rfl, hp, ?_⟩
  rw [hp]
  exact List.cons_ne_nil _ _

/-- C3 (amended): for every word run whose trimmed content is non-empty,
the pipeline appends one leading record `{"source": run text}` followed by
exactly one word record per analyzer token, in analyzer-emission order;
each word record's first `[name, value]` pair binds `"source"` to that
token's surface string. -/
theorem C3_word_run_records (analyzer : Analyzer) (part : String)
    (h : rust_trim part.data ≠ []) :
    processPart analyzer part
      = JValue.obj [("source", JValue.str part)]
          :: (analyzer part).map tokenRecord ∧
    ∀ tk : Token, tokenRecord tk
      = JValue.arr (JValue.arr [JValue.str "source", JValue.str tk.surface]
          :: (DATA.zip (featureInfo tk.feature)).map pairToJson) := by
  constructor
  · rw [processPart, if_neg h, VibratoWorker.tokenize]
  · intro tk
    rw [tokenRecord, tokenPairs]
    rfl

/-- Witness for C3: the amended statement instantiated at the run `"a"`
and an analyzer producing a single token. -/
theorem C3_word_run_records_witness :
    processPart (fun _ => [⟨"a", "x"⟩]) "a"
      = JValue.obj [("source", JValue.str "a")]
          :: ([⟨"a", "x"⟩] : List Token).map tokenRecord :=
  (C3_word_run_records (fun _ => [⟨"a", "x"⟩]) "a" (by decide)).1

/-! ## C5: whitespace runs and whitespace-only input -/

-- Helper: a list's `getLast?` value is a member.
theorem mem_of_getLast?_eq_some {α : Type} {l : List α} {a : α}
    (h : l.getLast? = some a) : a ∈ l := by
  obtain ⟨hne, hx⟩ := List.mem_getLast?_eq_getLast (Option.mem_def.mpr h)
  rw [hx]
  exact List.getLast_mem hne

-- Helper: splitting at a character that does not occur yields one piece.
theorem splitOnChar_of_not_mem (sep : Char) :
    ∀ l : List Char, sep ∉ l → splitOnChar sep l = [l] := by
  intro l
  induction l with
  | nil => intro _; rfl
  | cons c cs ih =>
    intro h
    have hc : ¬ c = sep := fun hh => h (hh ▸ List.mem_cons_self c cs)
    have hcs : sep ∉ cs := fun hm => h (List.mem_cons_of_mem c hm)
    rw [splitOnChar, if_neg hc, ih hcs]

-- Helper: an input without line terminators is a single line of itself.
theorem rust_lines_single (s : String) (hne : s.data ≠ [])
    (hnl : ('\n' : Char) ∉ s.data) (_hcr : ('\r' : Char) ∉ s.data) :
    rust_lines s = [s] := by
  rw [rust_lines, if_neg hne]
  have h1 : ¬ s.data.getLast? = some '\n' :=
    fun h => hnl (mem_of_getLast?_eq_some h)
  rw [if_neg h1, splitOnChar_of_not_mem '\n' s.data hnl]
  simp

-- Helper: a list of characters of one category is a single run.
theorem splitWordsChars_const_cat (c : Char) (cs : List Char)
    (h : ∀ d ∈ cs, Category.fromChar d = Category.fromChar c) :
    splitWordsChars (c :: cs) = [c :: cs] := by
  rw [splitWordsChars]
  have ht : cs.takeWhile
      (fun d => decide (Category.fromChar d = Category.fromChar c)) = cs :=
    List.takeWhile_eq_self_iff.mpr (fun a ha => by simp [h a ha])
  have hd : cs.dropWhile
      (fun d => decide (Category.fromChar d = Category.fromChar c)) = [] :=
    List.dropWhile_eq_nil_iff.mpr (fun a ha => by simp [h a ha])
  rw [ht, hd]
  simp [splitWordsChars]

-- Helper: trimming a string of whitespace leaves nothing.
theorem rust_trim_of_all_ws (cs : List Char)
    (h : ∀ d ∈ cs, isRustWhitespace d) : rust_trim cs = [] := by
  rw [rust_trim, List.dropWhile_eq_nil_iff.mpr h]
  rfl

-- Helper: a whitespace-only input (without line terminators) produces
-- exactly the one dummy record.
theorem tokenize_lines_all_ws (analyzer : Analyzer) (s : String)
    (hne : s.data ≠ []) (hws : ∀ c ∈ s.data, isRustWhitespace c)
    (hnl : ('\n' : Char) ∉ s.data) (hcr : ('\r' : Char) ∉ s.data) :
    VibratoWorker.tokenize_lines analyzer s = [generate_dummy_data s] := by
  rw [VibratoWorker.tokenize_lines, rust_lines_single s hne hnl hcr]
  simp only [List.flatMap_cons, List.flatMap_nil, List.append_nil]
  have hsplit : split_words s = [s] := by
    rw [split_words]
    cases hdata : s.data with
    | nil => exact absurd hdata hne
    | cons c cs =>
      have hcat : ∀ d ∈ cs, Category.fromChar d = Category.fromChar c := by
        intro d hd
        have h1 : isRustWhitespace d :=
          hws d (by rw [hdata]; exact List.mem_cons_of_mem c hd)
        have h2 : isRustWhitespace c :=
          hws c (by rw [hdata]; exact List.mem_cons_self c cs)
        rw [Category.fromChar, Category.fromChar, if_pos h1, if_pos h2]
      rw [splitWordsChars_const_cat c cs hcat]
      simp only [List.map_cons, List.map_nil, ← hdata]
  rw [hsplit]
  simp only [List.flatMap_cons, List.flatMap_nil, List.append_nil]
  rw [processPart, if_pos (rust_trim_of_all_ws s.data hws)]


/-- C5: every whitespace run (a run whose trimmed content is empty, which
also covers the degenerate word-run case) contributes exactly one dummy
record whose source is the run's exact text and whose provider fields are
all null, independently of the analyzer; consequently `parse_text` on a
string of only (non-line-terminator) whitespace yields exactly one dummy
record whose source is the whole input. -/
theorem C5_whitespace_run_dummy (analyzer analyzer2 : Analyzer) (part s : String)
    (hpart : rust_trim part.data = [])
    (hne : s.data ≠ []) (hws : ∀ c ∈ s.data, isRustWhitespace c)
    (hnl : ('\n' : Char) ∉ s.data) (hcr : ('\r' : Char) ∉ s.data) :
    processPart analyzer part = [generate_dummy_data part] ∧
    processPart analyzer part = processPart analyzer2 part ∧
    jGet (generate_dummy_data part) "source" = some (JValue.str part) ∧
    jGet (generate_dummy_data part) "ipadic" = some JValue.null ∧
    jGet (generate_dummy_data part) "ipadic-neologd" = some JValue.null ∧
    jGet (generate_dummy_data part) "unidic-mecab-translate" = some JValue.null ∧
    VibratoWorker.tokenize_lines analyzer s = [generate_dummy_data s] := by
  have hp : processPart analyzer part = [generate_dummy_data part] := by
    rw [processPart, if_pos hpart]
  have hp2 : processPart analyzer2 part = [generate_dummy_data part] := by
    rw [processPart, if_pos hpart]
  exact ⟨hp, hp.trans hp2.symm, rfl, rfl, rfl, rfl,
    tokenize_lines_all_ws analyzer s hne hws hnl hcr⟩

/-- Witness for C5: instantiated at the run `" "` and the whitespace-only
input `"   "`. -/
theorem C5_whitespace_run_dummy_witness :
    processPart (fun _ => []) " " = [generate_dummy_data " "] ∧
    processPart (fun _ => []) " " = processPart (fun _ => [⟨"t", "f"⟩]) " " ∧
    jGet (generate_dummy_data " ") "source" = some (JValue.str " ") ∧
    jGet (generate_dummy_data " ") "ipadic" = some JValue.null ∧
    jGet (generate_dummy_data " ") "ipadic-neologd" = some JValue.null ∧
    jGet (generate_dummy_data " ") "unidic-mecab-translate" = some JValue.null ∧
    VibratoWorker.tokenize_lines (fun _ => []) "   " = [generate_dummy_data "   "] :=
  C5_whitespace_run_dummy (fun _ => []) (fun _ => [⟨"t", "f"⟩]) " " "   "
    (by decide) (by decide) (by decide) (by decide) (by decide)

/-! ## C6: line ordering and line terminators -/

/-- The `source` value of a record: for an object, the string at the
`source` key; for a serde pair-vector array, the value of a leading
`["source", v]` pair. -/
def recordSource : JValue → Option String
  | .obj fields =>
    match fields.lookup "source" with
    | some (.str v) => some v
    | _ => none
  | .arr (JValue.arr [JValue.str k, JValue.str v] :: _) =>
    if k = "source" then some v else none
  | _ => none

-- Helper: `splitOnChar` always yields at least one piece.
theorem splitOnChar_ne_nil (sep : Char) : ∀ l, splitOnChar sep l ≠ [] := by
  intro l
  induction l with
  | nil => exact List.cons_ne_nil _ _
  | cons c cs ih =>
    rw [splitOnChar]
    by_cases hc : c = sep
    · rw [if_pos hc]
      exact List.cons_ne_nil _ _
    · rw [if_neg hc]
      cases hcase : splitOnChar sep cs with
      | nil => exact absurd hcase ih
      | cons r rs => exact List.cons_ne_nil _ _

-- Helper: the separator never occurs inside a piece of `splitOnChar`.
theorem not_mem_of_mem_splitOnChar (sep : Char) :
    ∀ l piece, piece ∈ splitOnChar sep l → sep ∉ piece := by
  intro l
  induction l with
  | nil =>
    intro piece hp
    rw [splitOnChar] at hp
    rw [List.mem_singleton.mp hp]
    exact List.not_mem_nil sep
  | cons c cs ih =>
    intro piece hp
    rw [splitOnChar] at hp
    by_cases hc : c = sep
    · rw [if_pos hc] at hp
      rcases List.mem_cons.mp hp with h | h
      · rw [h]; exact List.not_mem_nil sep
      · exact ih piece h
    · rw [if_neg hc] at hp
      cases hcase : splitOnChar sep cs with
      | nil => exact absurd hcase (splitOnChar_ne_nil sep cs)
      | cons r rs =>
        rw [hcase] at hp
        rcases List.mem_cons.mp hp with h | h
        · rw [h]
          intro hmem
          rcases List.mem_cons.mp hmem with h1 | h1
          · exact hc h1.symm
          · exact ih r (hcase ▸ List.mem_cons_self r rs) h1
        · exact ih piece (hcase ▸ List.mem_cons_of_mem r h)

-- Helper: no line produced by `rust_lines` contains a newline character.
theorem rust_lines_no_newline (s : String) :
    ∀ line ∈ rust_lines s, ('\n' : Char) ∉ line.data := by
  intro line hline
  rw [rust_lines] at hline
  by_cases hne : s.data = []
  · rw [if_pos hne] at hline
    exact absurd hline (List.not_mem_nil line)
  · rw [if_neg hne] at hline
    obtain ⟨stripped, hmem, hmk⟩ := List.mem_map.mp hline
    have hsub : ∃ piece ∈ splitOnChar '\n' s.data,
        stripped = piece ∨ stripped = piece.dropLast := by
      rcases List.mem_append.mp hmem with h | h
      · obtain ⟨piece, hp, hstrip⟩ := List.mem_map.mp h
        refine ⟨piece, (List.dropLast_sublist _).subset hp, ?_⟩
        rw [← hstrip, stripCR]
        by_cases hlast : piece.getLast? = some '\r'
        · rw [if_pos hlast]
          exact Or.inr rfl
        · rw [if_neg hlast]
          exact Or.inl rfl
      · by_cases hend : s.data.getLast? = some '\n'
        · rw [if_pos hend] at h
          exact absurd h (List.not_mem_nil stripped)
        · rw [if_neg hend] at h
          have hp2 : stripped = ((splitOnChar '\n' s.data).getLast?).getD [] :=
            List.mem_singleton.mp h
          cases hg : (splitOnChar '\n' s.data).getLast? with
          | none =>
            exact absurd (List.getLast?_eq_none_iff.mp hg)
              (splitOnChar_ne_nil '\n' s.data)
          | some piece =>
            refine ⟨piece, mem_of_getLast?_eq_some hg, Or.inl ?_⟩
            rw [hp2, hg]
            rfl
    obtain ⟨piece, hpiece, hcase⟩ := hsub
    have hnl : ('\n' : Char) ∉ piece :=
      not_mem_of_mem_splitOnChar '\n' s.data piece hpiece
    rw [← hmk]
    rcases hcase with h | h
    · rw [h]
      exact hnl
    · rw [h]
      exact fun hm => hnl ((List.dropLast_sublist piece).subset hm)

-- Helper: every character of a run lies in the segmented line.
theorem mem_split_words_subset (line : String) :
    ∀ part ∈ split_words line, ∀ c ∈ part.data, c ∈ line.data := by
  intro part hpart c hc
  rw [split_words] at hpart
  obtain ⟨cs, hcs, hmk⟩ := List.mem_map.mp hpart
  have hdata : part.data = cs := by rw [← hmk]
  rw [hdata] at hc
  have : c ∈ (splitWordsChars line.data).flatten :=
    List.mem_flatten.mpr ⟨cs, hcs, hc⟩
  rw [splitWordsChars_flatten] at this
  exact this

/-- C6 counterexample: a carriage return is a line-terminator character,
yet on input `"a\rb"` — a single line for Rust `str::lines`, which does
not split at a lone `'\r'` — the segmenter isolates the whitespace run
`"\r"` and the pipeline emits a dummy record whose `source` is exactly
`"\r"`.  So the claim that line-terminator characters never appear in a
record's `source` is false of the program. -/
theorem C6_counterexample :
    (VibratoWorker.tokenize_lines (fun _ => []) "a\rb")[1]?
      = some (generate_dummy_data "\x0d") ∧
    recordSource (generate_dummy_data "\x0d") = some "\x0d" ∧
    ('\x0d' : Char) ∈ "\x0d".data := by
  refine ⟨?_, rfl, by decide⟩
  simp [VibratoWorker.tokenize_lines, rust_lines, splitOnChar, stripCR,
    split_words, splitWordsChars, processPart, rust_trim, isRustWhitespace,
    WHITESPACE, Category.fromChar, VibratoWorker.tokenize, generate_dummy_data]

/-- C6 (amended): the response records are the concatenation, in
input-line order, of each line's record group; the newline character
`'\n'` never appears in any record's `source` (provided the black-box
analyzer only returns surface strings built from its input's characters),
though a lone carriage return inside a line can; and an empty input
yields an empty record array. -/
theorem C6_line_order (analyzer : Analyzer) (s : String)
    (hsur : ∀ t : String, ∀ tk ∈ analyzer t, ∀ c ∈ tk.surface.data, c ∈ t.data) :
    VibratoWorker.tokenize_lines analyzer s
      = ((rust_lines s).map
          (fun line => (split_words line).flatMap (processPart analyzer))).flatten ∧
    (∀ r ∈ VibratoWorker.tokenize_lines analyzer s, ∀ src,
      recordSource r = some src → ('\n' : Char) ∉ src.data) ∧
    VibratoWorker.tokenize_lines analyzer "" = [] := by
  refine ⟨?_, ?_, ?_⟩
  · rw [VibratoWorker.tokenize_lines, List.flatMap_def]
  · intro r hr src hsrc
    rw [VibratoWorker.tokenize_lines] at hr
    obtain ⟨line, hline, hr⟩ := List.mem_flatMap.mp hr
    obtain ⟨part, hpart, hr⟩ := List.mem_flatMap.mp hr
    have hline_nl : ('\n' : Char) ∉ line.data := rust_lines_no_newline s line hline
    have hpart_sub : ∀ c ∈ part.data, c ∈ line.data :=
      mem_split_words_subset line part hpart
    rw [processPart] at hr
    by_cases htrim : rust_trim part.data = []
    · rw [if_pos htrim] at hr
      rw [List.mem_singleton.mp hr] at hsrc
      have : some part = some src := hsrc
      rw [← Option.some.injEq part src |>.mp this]
      exact fun hm => hline_nl (hpart_sub _ hm)
    · rw [if_neg htrim, VibratoWorker.tokenize] at hr
      rcases List.mem_cons.mp hr with h | h
      · rw [h] at hsrc
        have : some part = some src := hsrc
        rw [← Option.some.injEq part src |>.mp this]
        exact fun hm => hline_nl (hpart_sub _ hm)
      · obtain ⟨tk, htk, hrec⟩ := List.mem_map.mp h
        rw [← hrec] at hsrc
        have hsrc' : recordSource (tokenRecord tk) = some tk.surface := by
          rw [tokenRecord, tokenPairs]
          simp [pairToJson, recordSource]
        rw [hsrc'] at hsrc
        rw [← Option.some.injEq tk.surface src |>.mp hsrc]
        exact fun hm => hline_nl (hpart_sub _ (hsur part tk htk _ hm))
  · rw [VibratoWorker.tokenize_lines]
    rw [show rust_lines "" = [] from by decide]
    rfl

/-- Witness for C6: the empty-input conjunct instantiated at an analyzer
returning no tokens. -/
theorem C6_line_order_witness :
    VibratoWorker.tokenize_lines (fun _ => []) "" = [] :=
  (C6_line_order (fun _ => [])
    "" (fun _ tk h => absurd h (List.not_mem_nil tk))).2.2

/-! ## C4: shapes of the records in a `parse_text` response -/

/-- Structural test for "is a JSON object". -/
def isJObject : JValue → Bool
  | .obj _ => true
  | _ => false

/-- C4 counterexample: on input `"x"` with an analyzer producing one token
(surface `"x"`, feature `"a"`), the second record of the response is the
serde serialization of the pair vector — a JSON **array**
`[["source","x"],["pos","a"]]` — and not a JSON object as the claim
states. -/
theorem C4_counterexample :
    (VibratoWorker.tokenize_lines (fun _ => [⟨"x", "a"⟩]) "x")[1]?
      = some (JValue.arr [JValue.arr [JValue.str "source", JValue.str "x"],
          JValue.arr [JValue.str "pos", JValue.str "a"]]) ∧
    isJObject (JValue.arr [JValue.arr [JValue.str "source", JValue.str "x"],
          JValue.arr [JValue.str "pos", JValue.str "a"]]) = false := by
  constructor
  · simp [VibratoWorker.tokenize_lines, rust_lines, split_words, splitWordsChars,
      processPart, rust_trim, isRustWhitespace, WHITESPACE, VibratoWorker.tokenize,
      tokenRecord, tokenPairs, featureInfo, featureSubfields, DATA, pairToJson,
      Category.fromChar, splitOnChar]
  · rfl

/-- C4 (amended): every record of a `parse_text` response is either a
whitespace dummy record (an object pairing `source` with the fixed
provider-name keys, all `null`), the per-run leading record
`{"source": run text}` (an object), or a per-token word record — a JSON
array of two-element `[name, value]` arrays whose first entry is
`["source", surface]` and whose at most 12 further entries pair an initial
segment of the fixed names with string-or-null values. -/
theorem C4_record_shapes (analyzer : Analyzer) (s : String) :
    (∀ r ∈ VibratoWorker.tokenize_lines analyzer s,
      (∃ t, r = generate_dummy_data t) ∨
      (∃ t, r = JValue.obj [("source", JValue.str t)]) ∨
      (∃ tk, r = tokenRecord tk)) ∧
    (∀ t, jGet (generate_dummy_data t) "source" = some (JValue.str t) ∧
      jGet (generate_dummy_data t) "ipadic" = some JValue.null ∧
      jGet (generate_dummy_data t) "ipadic-neologd" = some JValue.null ∧
      jGet (generate_dummy_data t) "unidic-mecab-translate" = some JValue.null) ∧
    (∀ tk : Token, ∃ ps : List (String × Option String),
      tokenRecord tk = JValue.arr (ps.map pairToJson) ∧
      ps.head? = some ("source", some tk.surface) ∧
      ps.tail.length ≤ 12 ∧
      ps.tail.map Prod.fst = DATA.take ps.tail.length ∧
      ∀ p ∈ ps, pairToJson p = JValue.arr [JValue.str p.1, JValue.null] ∨
        ∃ v, pairToJson p = JValue.arr [JValue.str p.1, JValue.str v]) := by
  refine ⟨?_, ?_, ?_⟩
  · intro r hr
    rw [VibratoWorker.tokenize_lines] at hr
    obtain ⟨line, -, hr⟩ := List.mem_flatMap.mp hr
    obtain ⟨part, -, hr⟩ := List.mem_flatMap.mp hr
    rw [processPart] at hr
    by_cases htrim : rust_trim part.data = []
    · rw [if_pos htrim] at hr
      exact Or.inl ⟨part, (List.mem_singleton.mp hr)⟩
    · rw [if_neg htrim, VibratoWorker.tokenize] at hr
      rcases List.mem_cons.mp hr with h | h
      · exact Or.inr (Or.inl ⟨part, h⟩)
      · obtain ⟨tk, -, htk⟩ := List.mem_map.mp h
        exact Or.inr (Or.inr ⟨tk, htk.symm⟩)
  · intro t
    exact ⟨rfl, rfl, rfl, rfl⟩
  · intro tk
    refine ⟨tokenPairs tk, rfl, rfl, ?_, ?_, ?_⟩
    · rw [tokenPairs]
      simp only [List.tail_cons, List.length_zip]
      have hD : DATA.length = 12 := by rw [DATA]; rfl
      rw [hD]
      exact Nat.min_le_left _ _
    · rw [tokenPairs]
      simp only [List.tail_cons, List.length_zip]
      have hD : DATA.length = 12 := by rw [DATA]; rfl
      rw [map_fst_zip_eq_take, hD]
    · intro p _
      rcases p with ⟨k, v⟩
      cases v with
      | none => exact Or.inl rfl
      | some w => exact Or.inr ⟨w, rfl⟩

/-- Witness for C4: the amended statement instantiated at a whitespace-only
input, whose single record is the dummy record. -/
theorem C4_record_shapes_witness :
    (∃ t, generate_dummy_data " " = generate_dummy_data t) ∨
    (∃ t, generate_dummy_data " " = JValue.obj [("source", JValue.str t)]) ∨
    (∃ tk, generate_dummy_data " " = tokenRecord tk) :=
  (C4_record_shapes (fun _ => []) " ").1 (generate_dummy_data " ")
    (by simp [VibratoWorker.tokenize_lines, rust_lines, split_words,
      splitWordsChars, processPart, rust_trim, isRustWhitespace, WHITESPACE,
      Category.fromChar, splitOnChar])

/-! ## C7: the `get_version` action -/

/-- C7: for every request whose `action` is the string `"get_version"`,
whatever its `params`, the dispatcher replies with a message whose
`sequence` is the request's `sequence` value, echoed by value, and whose
`data` is exactly `{"version": 1}`. -/
theorem C7_get_version (analyzer : Analyzer) (msg : JValue)
    (h : jGet msg "action" = some (JValue.str "get_version")) :
    do_stuff_dispatch analyzer msg
      = DispatchResult.reply (JValue.obj
          [("sequence", jIndex msg "sequence"),
           ("data", JValue.obj [("version", JValue.num 1)])]) ∧
    (∀ seqv, jGet msg "sequence" = some seqv →
      jGet (JValue.obj [("sequence", jIndex msg "sequence"),
          ("data", JValue.obj [("version", JValue.num 1)])]) "sequence"
        = some seqv) ∧
    jGet (JValue.obj [("sequence", jIndex msg "sequence"),
        ("data", JValue.obj [("version", JValue.num 1)])]) "data"
      = some (JValue.obj [("version", JValue.num 1)]) := by
  refine ⟨?_, ?_, rfl⟩
  · simp [do_stuff_dispatch, h, jEqStr]
  · intro seqv hs
    have hseq : jIndex msg "sequence" = seqv := by simp [jIndex, hs]
    simp [jGet, List.lookup, hseq]

/-- Witness for C7: a concrete `get_version` request with a string
sequence id. -/
theorem C7_get_version_witness :
    do_stuff_dispatch (fun _ => [])
        (JValue.obj [("action", JValue.str "get_version"),
          ("sequence", JValue.str "abc")])
      = DispatchResult.reply (JValue.obj
          [("sequence", jIndex (JValue.obj [("action", JValue.str "get_version"),
              ("sequence", JValue.str "abc")]) "sequence"),
           ("data", JValue.obj [("version", JValue.num 1)])]) :=
  (C7_get_version (fun _ => [])
    (JValue.obj [("action", JValue.str "get_version"),
      ("sequence", JValue.str "abc")]) rfl).1

/-! ## C9: malformed requests abort the process -/

/-- C9: a request with no `action`, one whose `action` equals neither the
string `"get_version"` nor the string `"parse_text"`, or a `parse_text`
request whose `params.text` is not a string, makes the dispatcher abort
the process instead of replying. -/
theorem C9_bad_request_aborts (analyzer : Analyzer) (msg : JValue)
    (h : jGet msg "action" = none ∨
      (∃ req, jGet msg "action" = some req ∧
        jEqStr req "get_version" = false ∧ jEqStr req "parse_text" = false) ∨
      (jGet msg "action" = some (JValue.str "parse_text") ∧
        jAsStr (jIndex (jIndex msg "params") "text") = none)) :
    do_stuff_dispatch analyzer msg = DispatchResult.abort := by
  rcases h with h | ⟨req, hreq, h1, h2⟩ | ⟨hreq, htext⟩
  · simp [do_stuff_dispatch, h]
  · simp [do_stuff_dispatch, hreq, h1, h2]
  · simp [do_stuff_dispatch, hreq, jEqStr, htext]

/-- Witness for C9: a concrete request with an unknown action. -/
theorem C9_bad_request_aborts_witness :
    do_stuff_dispatch (fun _ => [])
        (JValue.obj [("action", JValue.str "frobnicate")])
      = DispatchResult.abort :=
  C9_bad_request_aborts (fun _ => [])
    (JValue.obj [("action", JValue.str "frobnicate")])
    (Or.inr (Or.inl ⟨JValue.str "frobnicate", rfl, by decide, by decide⟩))

/-! ## C10: missing `sequence` key echoed as `null` -/

/-- C10: when the request has no `sequence` key, any response the
dispatcher sends (for `get_version` as well as `parse_text`) carries
`"sequence": null`. -/
theorem C10_missing_sequence_null (analyzer : Analyzer) (msg : JValue)
    (h : jGet msg "sequence" = none) :
    ∀ r, do_stuff_dispatch analyzer msg = DispatchResult.reply r →
      jGet r "sequence" = some JValue.null := by
  intro r hr
  have hseq : jIndex msg "sequence" = JValue.null := by rw [jIndex, h]; rfl
  rw [do_stuff_dispatch] at hr
  cases hact : jGet msg "action" with
  | none =>
    rw [hact] at hr
    exact DispatchResult.noConfusion hr
  | some req =>
    rw [hact] at hr
    simp only [] at hr
    by_cases h1 : jEqStr req "get_version" = true
    · rw [if_pos h1] at hr
      injection hr with hx
      rw [← hx, jGet]
      simp [List.lookup, hseq]
    · rw [if_neg h1] at hr
      by_cases h2 : jEqStr req "parse_text" = true
      · rw [if_pos h2] at hr
        cases htext : jAsStr (jIndex (jIndex msg "params") "text") with
        | none =>
          rw [htext] at hr
          exact DispatchResult.noConfusion hr
        | some text =>
          rw [htext] at hr
          injection hr with hx
          rw [← hx, jGet]
          simp [List.lookup, hseq]
      · rw [if_neg h2] at hr
        exact DispatchResult.noConfusion hr

/-- Witness for C10: a `get_version` request without a `sequence` key. -/
theorem C10_missing_sequence_null_witness :
    jGet (JValue.obj [("sequence", JValue.null),
        ("data", JValue.obj [("version", JValue.num 1)])]) "sequence"
      = some JValue.null :=
  C10_missing_sequence_null (fun _ => [])
    (JValue.obj [("action", JValue.str "get_version")]) rfl
    (JValue.obj [("sequence", JValue.null),
      ("data", JValue.obj [("version", JValue.num 1)])]) rfl

/-! ## C8: the framer's receive operation -/

-- Helper: `read_u32` fails exactly on streams shorter than 4 bytes.
theorem read_u32_none_iff (input : List Nat) :
    read_u32 input = none ↔ input.length < 4 := by
  match input with
  | [] => simp [read_u32]
  | [a] => simp [read_u32]
  | [a, b] => simp [read_u32]
  | [a, b, c] => simp [read_u32]
  | a :: b :: c :: d :: rest => simp [read_u32]

/-- C8: `get_message` returns the distinguished end-of-stream result (not
an error) when zero bytes remain before the length prefix; on a nonempty
stream it reads the 4-byte length prefix, then exactly that many payload
bytes, and returns the payload decoded as UTF-8 and parsed as JSON; it
errs exactly when fewer bytes than declared remain (including a short
length prefix), the payload is not valid UTF-8, or the payload is not
valid JSON. -/
theorem C8_get_message (u : List Nat → Option String)
    (j : String → Option JValue) (input : List Nat) :
    get_message u j [] = MsgResult.eof ∧
    (get_message u j input = MsgResult.err ↔
      input ≠ [] ∧
      (input.length < 4 ∨
        ∃ len rest, read_u32 input = some (len, rest) ∧
          (rest.length < len ∨
            (len ≤ rest.length ∧
              (u (rest.take len) = none ∨
                ∃ s, u (rest.take len) = some s ∧ j s = none))))) ∧
    (∀ len rest s v, read_u32 input = some (len, rest) → len ≤ rest.length →
      u (rest.take len) = some s → j s = some v →
      get_message u j input = MsgResult.msg v (rest.drop len)) := by
  refine ⟨rfl, ?_, ?_⟩
  · cases input with
    | nil => simp [get_message]
    | cons cbyte t =>
      have hunfold : get_message u j (cbyte :: t) =
          match read_u32 (cbyte :: t) with
          | none => MsgResult.err
          | some (len, rest) =>
            if len ≤ rest.length then
              match u (rest.take len) with
              | none => MsgResult.err
              | some s =>
                match j s with
                | none => MsgResult.err
                | some v => MsgResult.msg v (rest.drop len)
            else MsgResult.err := rfl
      rw [hunfold]
      cases hr32 : read_u32 (cbyte :: t) with
      | none =>
        constructor
        · intro _
          exact ⟨List.cons_ne_nil cbyte t, Or.inl ((read_u32_none_iff _).mp hr32)⟩
        · intro _
          rfl
      | some lenrest =>
        obtain ⟨len, rest⟩ := lenrest
        simp only []
        by_cases hle : len ≤ rest.length
        · rw [if_pos hle]
          cases hu : u (rest.take len) with
          | none =>
            simp only []
            constructor
            · intro _
              exact ⟨List.cons_ne_nil cbyte t,
                Or.inr ⟨len, rest, rfl, Or.inr ⟨hle, Or.inl hu⟩⟩⟩
            · intro _
              trivial
          | some s =>
            simp only []
            cases hj : j s with
            | none =>
              simp only []
              constructor
              · intro _
                exact ⟨List.cons_ne_nil cbyte t,
                  Or.inr ⟨len, rest, rfl, Or.inr ⟨hle, Or.inr ⟨s, hu, hj⟩⟩⟩⟩
              · intro _
                trivial
            | some v =>
              simp only []
              constructor
              · intro hmsg
                exact MsgResult.noConfusion hmsg
              · rintro ⟨-, hlen4 | ⟨len2, rest2, hr2, hcase⟩⟩
                · have := (read_u32_none_iff (cbyte :: t)).mpr hlen4
                  rw [this] at hr32
                  exact Option.noConfusion hr32
                · injection hr2 with hpair
                  have hlen : len = len2 := congrArg Prod.fst hpair
                  have hrest : rest = rest2 := congrArg Prod.snd hpair
                  rw [← hlen, ← hrest] at hcase
                  rcases hcase with hlt | ⟨-, hbad⟩
                  · exact absurd hle (Nat.not_le_of_lt hlt)
                  · rcases hbad with hun | ⟨s2, hus, hjn⟩
                    · rw [hu] at hun
                      exact Option.noConfusion hun
                    · rw [hu] at hus
                      injection hus with hs2
                      rw [← hs2] at hjn
                      rw [hj] at hjn
                      exact Option.noConfusion hjn
        · rw [if_neg hle]
          constructor
          · intro _
            exact ⟨List.cons_ne_nil cbyte t,
              Or.inr ⟨len, rest, rfl, Or.inl (Nat.lt_of_not_le hle)⟩⟩
          · intro _
            trivial
  · intro len rest s v hr32 hle hu hj
    cases input with
    | nil =>
      rw [show read_u32 [] = none from rfl] at hr32
      exact Option.noConfusion hr32
    | cons cbyte t =>
      have hunfold : get_message u j (cbyte :: t) =
          match read_u32 (cbyte :: t) with
          | none => MsgResult.err
          | some (len, rest) =>
            if len ≤ rest.length then
              match u (rest.take len) with
              | none => MsgResult.err
              | some s =>
                match j s with
                | none => MsgResult.err
                | some v => MsgResult.msg v (rest.drop len)
            else MsgResult.err := rfl
      rw [hunfold, hr32]
      simp only []
      rw [if_pos hle, hu]
      simp only []
      rw [hj]

/-- Witness for C8: a five-byte stream carrying the length prefix `1` and
the payload byte `65`, with a decoder and parser that accept it. -/
theorem C8_get_message_witness :
    get_message (fun bs => if bs = [65] then some "A" else none)
        (fun s => if s = "A" then some (JValue.str "A") else none)
        [1, 0, 0, 0, 65]
      = MsgResult.msg (JValue.str "A") ([65].drop 1) :=
  (C8_get_message (fun bs => if bs = [65] then some "A" else none)
    (fun s => if s = "A" then some (JValue.str "A") else none)
    [1, 0, 0, 0, 65]).2.2 1 [65] "A" (JValue.str "A")
    rfl (by decide) rfl rfl
